import Mathlib

/-!
Shallow embedding of the cache and rate-limiter subsystem of the
py-wikijs SDK (src/wikijs/ratelimit.py, src/wikijs/cache/base.py,
src/wikijs/cache/memory.py), together with theorems settling the
specification claims about them.

Python floats and timestamps are modelled as rationals; Python dicts /
OrderedDicts are modelled as association lists whose front is the
least-recently-used end (matching OrderedDict iteration order, where
popitem(last := False) removes the front).  Wall-clock readings
(time.time()) and sleeps are externalised: each loop iteration of
RateLimiter.acquire consumes a pair of clock readings from an explicit
trace, and a validity predicate on traces captures monotone time and the
lower bound that time.sleep imposes on the next reading.
-/

namespace WikiJS

/-! ### Rate limiter (src/wikijs/ratelimit.py) -/

/-- Python int() applied to a float: truncation toward zero. -/
def pyInt (q : ℚ) : ℤ := q.num.tdiv q.den

/-- State of a RateLimiter: rate and burst are set at construction,
tokens and lastUpdate evolve. -/
structure RateLimiter where
  rate : ℚ
  burst : ℤ
  tokens : ℚ
  lastUpdate : ℚ
deriving DecidableEq, Repr

/-- RateLimiter.__init__: burst defaults via Python truthiness
(burst or int(requests_per_second)), so both None and 0 fall back to
int(requests_per_second); tokens start at float(burst). -/
def mkRateLimiter (requests_per_second : ℚ) (burst : Option ℤ) (now : ℚ) :
    RateLimiter :=
  let b : ℤ :=
    match burst with
    | some n => if n = 0 then pyInt requests_per_second else n
    | none => pyInt requests_per_second
  { rate := requests_per_second, burst := b, tokens := (b : ℚ), lastUpdate := now }

/-- The refill step inside acquire's lock: add elapsed * rate tokens,
capped at burst, and stamp lastUpdate. -/
def refillTokens (st : RateLimiter) (now : ℚ) : RateLimiter :=
  { st with
    tokens := min (st.burst : ℚ) (st.tokens + (now - st.lastUpdate) * st.rate)
    lastUpdate := now }

/-- Python truthiness of an optional float (None and 0.0 are falsy),
as used by "deadline = time.time() + timeout if timeout else None" and
"if deadline and ...". -/
def pyTruthy : Option ℚ → Bool
  | none => false
  | some x => x != 0

/-- Outcome of one iteration of acquire's while-loop. -/
inductive AttemptOutcome where
  | success
  | timedOut
  | retry
deriving DecidableEq, Repr

/-- One iteration of RateLimiter.acquire's loop: refill at clock reading
`now`, consume a token on success, otherwise compare a fresh clock
reading `chk` plus the wait time against the deadline. -/
def attempt (st : RateLimiter) (deadline : Option ℚ) (now chk : ℚ) :
    AttemptOutcome × RateLimiter :=
  if 1 ≤ (refillTokens st now).tokens then
    (.success, { refillTokens st now with tokens := (refillTokens st now).tokens - 1 })
  else if pyTruthy deadline = true ∧
      deadline.getD 0 < chk + (1 - (refillTokens st now).tokens) / st.rate then
    (.timedOut, refillTokens st now)
  else
    (.retry, refillTokens st now)

/-- The wait between retries: time.sleep (min wait_time 0.1). -/
def sleepAmount (st : RateLimiter) : ℚ := min ((1 - st.tokens) / st.rate) (1 / 10)

/-- RateLimiter.acquire's while-loop, driven by a finite trace of clock
reading pairs; returns none when the trace is exhausted with no answer
(the Python loop would still be running). -/
def acquireLoop (st : RateLimiter) (deadline : Option ℚ) :
    List (ℚ × ℚ) → Option Bool × RateLimiter
  | [] => (none, st)
  | (now, chk) :: rest =>
    match attempt st deadline now chk with
    | (.success, st') => (some true, st')
    | (.timedOut, st') => (some false, st')
    | (.retry, st') => acquireLoop st' deadline rest

/-- "deadline = time.time() + timeout if timeout else None": a timeout of
None or 0 installs no deadline. -/
def mkDeadline (t0 : ℚ) (timeout : Option ℚ) : Option ℚ :=
  match timeout with
  | some t => if t = 0 then none else some (t0 + t)
  | none => none

/-- RateLimiter.acquire: t0 is the clock reading used to compute the
deadline, trace feeds the loop's clock readings. -/
def RateLimiter.acquire (st : RateLimiter) (timeout : Option ℚ) (t0 : ℚ)
    (trace : List (ℚ × ℚ)) : Option Bool × RateLimiter :=
  acquireLoop st (mkDeadline t0 timeout) trace

/-- RateLimiter.reset. -/
def RateLimiter.reset (st : RateLimiter) (now : ℚ) : RateLimiter :=
  { st with tokens := (st.burst : ℚ), lastUpdate := now }

/-- Validity of a clock trace for a run of acquire's loop starting from
state `st` with deadline `dl`, anchored at time `t`: each iteration's
first reading is at or after the anchor, the second reading follows the
first, and after a retry the next anchor is the second reading plus the
slept duration min wait (1/10). -/
def traceOk (st : RateLimiter) (dl : Option ℚ) : ℚ → List (ℚ × ℚ) → Prop
  | _, [] => True
  | t, (now, chk) :: rest =>
    t ≤ now ∧ now ≤ chk ∧
      (match attempt st dl now chk with
       | (.retry, st') => traceOk st' dl (chk + sleepAmount st') rest
       | _ => True)

/-- The invariant claimed for the token count. -/
def RLInv (st : RateLimiter) : Prop := 0 ≤ st.tokens ∧ st.tokens ≤ (st.burst : ℚ)

/-- One observable rate-limiter operation. -/
inductive RLOp where
  | acq (timeout : Option ℚ) (t0 : ℚ) (trace : List (ℚ × ℚ))
  | rst (now : ℚ)

/-- Apply one rate-limiter operation to the state. -/
def stepRLOp (st : RateLimiter) : RLOp → RateLimiter
  | .acq timeout t0 trace => (st.acquire timeout t0 trace).2
  | .rst now => st.reset now

/-- Run a sequence of rate-limiter operations. -/
def runRLOps (st : RateLimiter) (ops : List RLOp) : RateLimiter :=
  ops.foldl stepRLOp st

/-- An operation's clock readings are consistent with the state's clock:
they do not precede the limiter's last update. -/
def rlOpValid (st : RateLimiter) : RLOp → Prop
  | .acq timeout t0 trace =>
    st.lastUpdate ≤ t0 ∧ traceOk st (mkDeadline t0 timeout) t0 trace
  | .rst now => st.lastUpdate ≤ now

/-- Validity of a whole operation sequence against the evolving state. -/
def rlSeqValid (st : RateLimiter) : List RLOp → Prop
  | [] => True
  | op :: rest => rlOpValid st op ∧ rlSeqValid (stepRLOp st op) rest

/-! ### Per-endpoint rate limiter (src/wikijs/ratelimit.py) -/

/-- PerEndpointRateLimiter state: default rate plus a dict of limiters. -/
structure PerEndpointRateLimiter where
  defaultRate : ℚ
  limiters : List (String × RateLimiter)
deriving DecidableEq, Repr

/-- Python dict assignment d[k] = v: overwrite in place if the key is
present, else append at the end. -/
def dictSet (l : List (String × RateLimiter)) (k : String) (v : RateLimiter) :
    List (String × RateLimiter) :=
  if l.any (fun p => p.1 == k) then
    l.map (fun p => if p.1 == k then (k, v) else p)
  else
    l ++ [(k, v)]

/-- PerEndpointRateLimiter.set_limit: store RateLimiter(rate), i.e. a
limiter with default burst, for the endpoint. -/
def PerEndpointRateLimiter.set_limit (p : PerEndpointRateLimiter)
    (endpoint : String) (rate : ℚ) (now : ℚ) : PerEndpointRateLimiter :=
  { p with limiters := dictSet p.limiters endpoint (mkRateLimiter rate none now) }

/-! ### Cache keys (src/wikijs/cache/base.py) -/

/-- CacheKey dataclass; dataclass equality is field-wise. -/
structure CacheKey where
  resource_type : String
  identifier : String
  operation : String := "get"
  params : Option String := none
deriving DecidableEq, Repr

/-- Python truthiness of an optional string: None and "" are falsy, as
used by "if self.params". -/
def pyTruthyStr : Option String → Bool
  | none => false
  | some s => !(s == "")

/-- CacheKey.to_string: join resource_type, identifier and operation with
":", appending params only when it is truthy (present and nonempty). -/
def CacheKey.to_string (k : CacheKey) : String :=
  let parts := [k.resource_type, k.identifier, k.operation]
  let parts := if pyTruthyStr k.params then parts ++ [k.params.getD ""] else parts
  String.intercalate ":" parts

/-! ### In-memory cache (src/wikijs/cache/memory.py) -/

/-- A cache entry as stored by MemoryCache.set. -/
structure CacheEntry (V : Type) where
  value : V
  expires_at : ℚ
  created_at : ℚ
deriving DecidableEq, Repr

/-- MemoryCache state: the OrderedDict is an association list whose front
is the least-recently-used end. -/
structure MemoryCache (V : Type) where
  ttl : ℚ
  max_size : ℕ
  entries : List (String × CacheEntry V)
  hits : ℕ
  misses : ℕ
deriving DecidableEq, Repr

/-- A fresh MemoryCache as built by __init__. -/
def MemoryCache.empty (V : Type) (ttl : ℚ) (max_size : ℕ) : MemoryCache V :=
  { ttl := ttl, max_size := max_size, entries := [], hits := 0, misses := 0 }

/-- Dict lookup by key string. -/
def MemoryCache.lookup {V : Type} (c : MemoryCache V) (ks : String) :
    Option (CacheEntry V) :=
  (c.entries.find? (fun p => p.1 == ks)).map (fun p => p.2)

/-- "key_str in self._cache". -/
def MemoryCache.contains {V : Type} (c : MemoryCache V) (ks : String) : Bool :=
  c.entries.any (fun p => p.1 == ks)

/-- "del self._cache[key_str]": dict keys are unique, so deletion is
removal of the key's entry, preserving the order of the rest. -/
def removeKey {V : Type} (l : List (String × CacheEntry V)) (ks : String) :
    List (String × CacheEntry V) :=
  l.filter (fun p => p.1 != ks)

/-- MemoryCache.get at clock reading `now`: unknown key counts a miss;
a known key with now past expires_at is removed and counts a miss;
otherwise move_to_end marks the entry most recently used, a hit is
counted, and the stored value is returned. -/
def MemoryCache.get {V : Type} (c : MemoryCache V) (key : CacheKey) (now : ℚ) :
    Option V × MemoryCache V :=
  let ks := key.to_string
  match c.lookup ks with
  | none => (none, { c with misses := c.misses + 1 })
  | some entry =>
    if entry.expires_at < now then
      (none, { c with entries := removeKey c.entries ks, misses := c.misses + 1 })
    else
      (some entry.value,
        { c with entries := removeKey c.entries ks ++ [(ks, entry)],
                 hits := c.hits + 1 })

/-- MemoryCache.set on the raw key string at clock reading `now`: remove
an existing entry for the key, evict the front (least recently used)
entry when the dict has reached max_size, then append the new entry at
the most-recently-used end with expires_at = now + ttl. -/
def MemoryCache.setRaw {V : Type} (c : MemoryCache V) (ks : String) (v : V)
    (now : ℚ) : MemoryCache V :=
  let entries := if c.contains ks then removeKey c.entries ks else c.entries
  let entries := if c.max_size ≤ entries.length then entries.tail else entries
  { c with entries :=
      entries ++ [(ks, { value := v, expires_at := now + c.ttl, created_at := now })] }

/-- MemoryCache.set. -/
def MemoryCache.set {V : Type} (c : MemoryCache V) (key : CacheKey) (v : V)
    (now : ℚ) : MemoryCache V :=
  c.setRaw key.to_string v now

/-- MemoryCache.delete. -/
def MemoryCache.delete {V : Type} (c : MemoryCache V) (key : CacheKey) :
    MemoryCache V :=
  let ks := key.to_string
  if c.contains ks then { c with entries := removeKey c.entries ks } else c

/-- MemoryCache.clear: drop all entries and reset the statistics. -/
def MemoryCache.clear {V : Type} (c : MemoryCache V) : MemoryCache V :=
  { c with entries := [], hits := 0, misses := 0 }

/-- The per-key test of MemoryCache.invalidate_resource: keys with fewer
than two colon-delimited segments are skipped; otherwise the first
segment must equal resource_type and, when an identifier is given, the
second segment must equal it. -/
def matchesResource (resource_type : String) (identifier : Option String)
    (ks : String) : Bool :=
  match ks.splitOn ":" with
  | p0 :: p1 :: _ =>
    p0 == resource_type &&
      (match identifier with
       | none => true
       | some i => p1 == i)
  | _ => false

/-- MemoryCache.invalidate_resource: collect the matching keys, then
delete them; the net effect on the dict is a filter. -/
def MemoryCache.invalidate_resource {V : Type} (c : MemoryCache V)
    (resource_type : String) (identifier : Option String) : MemoryCache V :=
  { c with entries :=
      c.entries.filter (fun p => !matchesResource resource_type identifier p.1) }

/-- MemoryCache.cleanup_expired at clock reading `now`: drop every entry
with now past its expires_at and return how many were dropped. -/
def MemoryCache.cleanup_expired {V : Type} (c : MemoryCache V) (now : ℚ) :
    ℕ × MemoryCache V :=
  let kept := c.entries.filter (fun p => !(decide (p.2.expires_at < now)))
  (c.entries.length - kept.length, { c with entries := kept })

/-- One observable cache operation, with its clock reading where the
source consults time.time(). -/
inductive CacheOp (V : Type) where
  | get (key : CacheKey) (now : ℚ)
  | set (key : CacheKey) (v : V) (now : ℚ)
  | del (key : CacheKey)
  | clear
  | invalidate (resource_type : String) (identifier : Option String)
  | cleanup (now : ℚ)

/-- Apply one cache operation to the state. -/
def stepCacheOp {V : Type} (c : MemoryCache V) : CacheOp V → MemoryCache V
  | .get key now => (c.get key now).2
  | .set key v now => c.set key v now
  | .del key => c.delete key
  | .clear => c.clear
  | .invalidate rt idOpt => c.invalidate_resource rt idOpt
  | .cleanup now => (c.cleanup_expired now).2

/-- Run a sequence of cache operations. -/
def runCacheOps {V : Type} (c : MemoryCache V) (ops : List (CacheOp V)) :
    MemoryCache V :=
  ops.foldl stepCacheOp c

/-- Run a sequence of set calls given as (key string, value, clock) triples. -/
def runSets {V : Type} (c : MemoryCache V) (ops : List (String × V × ℚ)) :
    MemoryCache V :=
  ops.foldl (fun c p => c.setRaw p.1 p.2.1 p.2.2) c

/-- Spec-side recency bookkeeping: after touching key k, k is the most
recent and any older touch of k is forgotten (most recent first). -/
def touchStep (acc : List String) (k : String) : List String :=
  k :: acc.filter (fun x => x != k)

/-- Keys of a sequence of touches ordered most recent first. -/
def touchedOrder (ks : List String) : List String :=
  ks.foldl touchStep []

/-- Spec-side: the m most-recently-touched keys of a touch sequence,
ordered least recent first (the order the cache stores them in). -/
def mostRecentKeys (m : ℕ) (ks : List String) : List String :=
  ((touchedOrder ks).take m).reverse

/-- Spec-side reading of the invalidate_resource claim: an entry is
removed exactly when its key has at least two colon-delimited segments,
the first equals resource_type, and any supplied identifier equals the
second. -/
def removedBySpec (resource_type : String) (identifier : Option String)
    (ks : String) : Prop :=
  2 ≤ (ks.splitOn ":").length ∧
    (ks.splitOn ":").getD 0 "" = resource_type ∧
    (∀ i, identifier = some i → (ks.splitOn ":").getD 1 "" = i)

/-- A string free of the serialization delimiter. -/
def noColon (s : String) : Prop := ':' ∉ s.data

/-! ### Helper lemmas about dict operations -/

theorem find?_removeKey_self {V : Type} (l : List (String × CacheEntry V))
    (ks : String) :
    (removeKey l ks).find? (fun p => p.1 == ks) = none := by
  rw [List.find?_eq_none]
  intro x hx
  have := (List.mem_filter.mp hx).2
  simpa using this

theorem find?_removeKey_ne {V : Type} (l : List (String × CacheEntry V))
    (ks k2 : String) (h : k2 ≠ ks) :
    (removeKey l ks).find? (fun p => p.1 == k2)
      = l.find? (fun p => p.1 == k2) := by
  induction l with
  | nil => rfl
  | cons a t ih =>
    rw [removeKey, List.filter_cons]
    cases hb : (a.1 != ks) with
    | false =>
      have ha : a.1 = ks := by simpa using hb
      have hk2 : (a.1 == k2) = false := by
        simp only [beq_eq_false_iff_ne, ne_eq]
        intro hh
        exact h (hh ▸ ha)
      simp only [Bool.false_eq_true, if_false]
      rw [List.find?_cons, hk2]
      exact ih
    | true =>
      simp only [if_true]
      rw [List.find?_cons, List.find?_cons]
      cases hk2 : (a.1 == k2) with
      | false => exact ih
      | true => rfl

theorem removeKey_removeKey {V : Type} (l : List (String × CacheEntry V))
    (ks : String) :
    removeKey (removeKey l ks) ks = removeKey l ks := by
  simp [removeKey, List.filter_filter]

/-! ### Splitting delimited strings -/

theorem colon_split (a x : List Char) : ∀ (b y : List Char), ':' ∉ a → ':' ∉ b →
    a ++ ':' :: x = b ++ ':' :: y → a = b ∧ x = y := by
  induction a with
  | nil =>
    intro b y _ hb h
    cases b with
    | nil => simpa using h
    | cons d bt =>
      simp only [List.nil_append, List.cons_append, List.cons.injEq] at h
      exact absurd (h.1 ▸ List.mem_cons_self d bt) hb
  | cons c as ih =>
    intro b y ha hb h
    cases b with
    | nil =>
      simp only [List.nil_append, List.cons_append, List.cons.injEq] at h
      exact absurd (h.1.symm ▸ List.mem_cons_self c as) ha
    | cons d bt =>
      simp only [List.cons_append, List.cons.injEq] at h
      have ha' : ':' ∉ as := fun hm => ha (List.mem_cons_of_mem c hm)
      have hb' : ':' ∉ bt := fun hm => hb (List.mem_cons_of_mem d hm)
      obtain ⟨h1, h2⟩ := ih bt y ha' hb' h.2
      exact ⟨by rw [h.1, h1], h2⟩

theorem colon_data : (":" : String).data = [':'] := rfl

theorem to_string_data_of_not_truthy (k : CacheKey) (h : pyTruthyStr k.params = false) :
    k.to_string.data
      = k.resource_type.data ++ ':' :: (k.identifier.data ++ ':' :: k.operation.data) := by
  rw [CacheKey.to_string]
  simp only [h, Bool.false_eq_true, if_false]
  have : String.intercalate ":" [k.resource_type, k.identifier, k.operation]
      = k.resource_type ++ ":" ++ k.identifier ++ ":" ++ k.operation := rfl
  rw [this]
  simp [String.data_append, colon_data]

theorem to_string_data_of_truthy (k : CacheKey) (ps : String) (hps : k.params = some ps)
    (h : pyTruthyStr k.params = true) :
    k.to_string.data
      = k.resource_type.data
          ++ ':' :: (k.identifier.data ++ ':' :: (k.operation.data ++ ':' :: ps.data)) := by
  have h' : pyTruthyStr (some ps) = true := by rw [← hps]; exact h
  rw [CacheKey.to_string]
  simp only [hps, h', if_true, Option.getD_some]
  have : String.intercalate ":" ([k.resource_type, k.identifier, k.operation] ++ [ps])
      = k.resource_type ++ ":" ++ k.identifier ++ ":" ++ k.operation ++ ":" ++ ps := rfl
  rw [this]
  simp [String.data_append, colon_data]

/-! ### C6: CacheKey serialization -/

/-- C6 as stated is false: a colon inside the operation field lets two
distinct keys (whose resource_type and identifier are colon-free)
serialize identically. -/
theorem cachekey_eq_iff_counterexample :
    noColon "a" ∧ noColon "b" ∧
    CacheKey.to_string ⟨"a", "b", "c:d", none⟩
      = CacheKey.to_string ⟨"a", "b", "c", some "d"⟩ ∧
    (⟨"a", "b", "c:d", none⟩ : CacheKey) ≠ ⟨"a", "b", "c", some "d"⟩ :=
  ⟨(by decide : ':' ∉ "a".data), (by decide : ':' ∉ "b".data), rfl, by decide⟩

/-- C6 (amended): for keys whose resource_type, identifier AND operation
are colon-free and whose params is never the empty string, serialization
yields resourceType:identifier:operation when params is absent and
resourceType:identifier:operation:params when params is present, and two
such keys are equal iff their serialized forms are equal. -/
theorem cachekey_to_string_spec (k1 k2 : CacheKey)
    (h1r : noColon k1.resource_type) (h1i : noColon k1.identifier)
    (h1o : noColon k1.operation) (h1p : k1.params ≠ some "")
    (h2r : noColon k2.resource_type) (h2i : noColon k2.identifier)
    (h2o : noColon k2.operation) (h2p : k2.params ≠ some "") :
    (k1.params = none →
      k1.to_string = k1.resource_type ++ ":" ++ k1.identifier ++ ":" ++ k1.operation) ∧
    (∀ ps, k1.params = some ps →
      k1.to_string
        = k1.resource_type ++ ":" ++ k1.identifier ++ ":" ++ k1.operation ++ ":" ++ ps) ∧
    (k1.to_string = k2.to_string ↔ k1 = k2) := by
  have truthy_of_some : ∀ (k : CacheKey) (ps : String), k.params ≠ some "" →
      k.params = some ps → pyTruthyStr k.params = true := by
    intro k ps hne hsome
    rw [hsome]
    have : ps ≠ "" := fun hh => hne (hh ▸ hsome)
    simpa [pyTruthyStr]
  have data_eq : ∀ s t : String, s.data = t.data → s = t := fun s t h => String.ext h
  refine ⟨?_, ?_, ?_, ?_⟩
  · intro hnone
    apply data_eq
    rw [to_string_data_of_not_truthy k1 (by rw [hnone]; rfl)]
    simp [String.data_append, colon_data]
  · intro ps hsome
    apply data_eq
    rw [to_string_data_of_truthy k1 ps hsome (truthy_of_some k1 ps h1p hsome)]
    simp [String.data_append, colon_data]
  · -- to_string k1 = to_string k2 → k1 = k2
    intro heq
    have hdata := congrArg String.data heq
    rcases hp1 : k1.params with _ | ps1 <;> rcases hp2 : k2.params with _ | ps2
    · rw [to_string_data_of_not_truthy k1 (by rw [hp1]; rfl),
        to_string_data_of_not_truthy k2 (by rw [hp2]; rfl)] at hdata
      obtain ⟨e1, hdata⟩ := colon_split _ _ _ _ h1r h2r hdata
      obtain ⟨e2, e3⟩ := colon_split _ _ _ _ h1i h2i hdata
      obtain ⟨a1, b1, c1, p1⟩ := k1
      obtain ⟨a2, b2, c2, p2⟩ := k2
      simp only at hp1 hp2 e1 e2 e3
      rw [CacheKey.mk.injEq]
      exact ⟨data_eq _ _ e1, data_eq _ _ e2, data_eq _ _ e3, by rw [hp1, hp2]⟩
    · rw [to_string_data_of_not_truthy k1 (by rw [hp1]; rfl),
        to_string_data_of_truthy k2 ps2 hp2 (truthy_of_some k2 ps2 h2p hp2)] at hdata
      obtain ⟨e1, hdata⟩ := colon_split _ _ _ _ h1r h2r hdata
      obtain ⟨e2, e3⟩ := colon_split _ _ _ _ h1i h2i hdata
      exact absurd (e3 ▸ List.mem_append_right k2.operation.data
        (List.mem_cons_self ':' ps2.data)) h1o
    · rw [to_string_data_of_truthy k1 ps1 hp1 (truthy_of_some k1 ps1 h1p hp1),
        to_string_data_of_not_truthy k2 (by rw [hp2]; rfl)] at hdata
      obtain ⟨e1, hdata⟩ := colon_split _ _ _ _ h1r h2r hdata
      obtain ⟨e2, e3⟩ := colon_split _ _ _ _ h1i h2i hdata
      exact absurd (e3.symm ▸ List.mem_append_right k1.operation.data
        (List.mem_cons_self ':' ps1.data)) h2o
    · rw [to_string_data_of_truthy k1 ps1 hp1 (truthy_of_some k1 ps1 h1p hp1),
        to_string_data_of_truthy k2 ps2 hp2 (truthy_of_some k2 ps2 h2p hp2)] at hdata
      obtain ⟨e1, hdata⟩ := colon_split _ _ _ _ h1r h2r hdata
      obtain ⟨e2, hdata⟩ := colon_split _ _ _ _ h1i h2i hdata
      obtain ⟨e3, e4⟩ := colon_split _ _ _ _ h1o h2o hdata
      obtain ⟨a1, b1, c1, p1⟩ := k1
      obtain ⟨a2, b2, c2, p2⟩ := k2
      simp only at hp1 hp2 e1 e2 e3 e4
      rw [CacheKey.mk.injEq]
      exact ⟨data_eq _ _ e1, data_eq _ _ e2, data_eq _ _ e3,
        by rw [hp1, hp2, data_eq _ _ e4]⟩
  · -- k1 = k2 → to_string k1 = to_string k2
    intro heq
    rw [heq]

/-- Witness for C6 (amended) at concrete keys. -/
theorem cachekey_to_string_spec_witness :
    CacheKey.to_string ⟨"page", "1", "get", some "x=1"⟩
      = "page" ++ ":" ++ "1" ++ ":" ++ "get" ++ ":" ++ "x=1" := by
  exact (cachekey_to_string_spec ⟨"page", "1", "get", some "x=1"⟩
    ⟨"page", "1", "get", some "x=1"⟩
    (by decide : ':' ∉ "page".data) (by decide : ':' ∉ "1".data)
    (by decide : ':' ∉ "get".data) (by decide)
    (by decide : ':' ∉ "page".data) (by decide : ':' ∉ "1".data)
    (by decide : ':' ∉ "get".data) (by decide)).2.1 "x=1" rfl

/-! ### C2: MemoryCache.get behaviour -/

/-- C2: for every cache state and key, get returns absent and counts a
miss when the key is unknown, or known but expired (removing the stale
entry); otherwise it counts a hit, moves the entry to the
most-recently-used end, and returns the stored value unchanged. -/
theorem cache_get_spec {V : Type} (c : MemoryCache V) (key : CacheKey) (now : ℚ) :
    (c.lookup key.to_string = none →
      c.get key now = (none, { c with misses := c.misses + 1 })) ∧
    (∀ e, c.lookup key.to_string = some e → e.expires_at < now →
      c.get key now =
        (none, { c with entries := removeKey c.entries key.to_string,
                        misses := c.misses + 1 })) ∧
    (∀ e, c.lookup key.to_string = some e → ¬ e.expires_at < now →
      c.get key now =
        (some e.value,
          { c with entries := removeKey c.entries key.to_string ++ [(key.to_string, e)],
                   hits := c.hits + 1 })) := by
  refine ⟨fun h => ?_, fun e h hexp => ?_, fun e h hexp => ?_⟩
  · simp [MemoryCache.get, h]
  · simp [MemoryCache.get, h, hexp]
  · simp [MemoryCache.get, h, hexp]

/-- Witness for C2 at a concrete cache: a fresh hit. -/
theorem cache_get_spec_witness :
    MemoryCache.get (⟨300, 10, [("page:1:get", ⟨7, 10, 0⟩)], 0, 0⟩ : MemoryCache ℕ)
        ⟨"page", "1", "get", none⟩ 5
      = (some 7, (⟨300, 10, [("page:1:get", ⟨7, 10, 0⟩)], 1, 0⟩ : MemoryCache ℕ)) := by
  have h := (cache_get_spec (⟨300, 10, [("page:1:get", ⟨7, 10, 0⟩)], 0, 0⟩ : MemoryCache ℕ)
      ⟨"page", "1", "get", none⟩ 5).2.2 ⟨7, 10, 0⟩ (by rfl) (by norm_num)
  simpa [removeKey] using h

/-! ### C4: MemoryCache.invalidate_resource behaviour -/

/-- C4: invalidate_resource removes all and only the entries whose key
has at least two colon-delimited segments, whose first segment equals
resource_type, and whose second segment equals any supplied identifier;
keys with fewer than two segments are untouched; surviving entries keep
their order. -/
theorem invalidate_resource_spec {V : Type} (c : MemoryCache V)
    (resource_type : String) (identifier : Option String) :
    (∀ ks, matchesResource resource_type identifier ks = true ↔
        removedBySpec resource_type identifier ks) ∧
    (∀ p : String × CacheEntry V,
        p ∈ (c.invalidate_resource resource_type identifier).entries ↔
          p ∈ c.entries ∧ ¬ removedBySpec resource_type identifier p.1) ∧
    (c.invalidate_resource resource_type identifier).entries.Sublist c.entries ∧
    (c.invalidate_resource resource_type identifier).hits = c.hits ∧
    (c.invalidate_resource resource_type identifier).misses = c.misses := by
  have hpred : ∀ ks, matchesResource resource_type identifier ks = true ↔
      removedBySpec resource_type identifier ks := by
    intro ks
    unfold matchesResource removedBySpec
    rcases hsplit : ks.splitOn ":" with _ | ⟨p0, _ | ⟨p1, rest⟩⟩
    · simp
    · simp
    · have hlen : 2 ≤ (p0 :: p1 :: rest).length := by
        simp only [List.length_cons]
        omega
      cases identifier with
      | none => simp [hlen]
      | some i => simp [hlen]
  refine ⟨hpred, fun p => ?_, ?_, rfl, rfl⟩
  · rw [MemoryCache.invalidate_resource]
    simp only [List.mem_filter, Bool.not_eq_true', ← hpred p.1]
    simp
  · exact List.filter_sublist c.entries

/-! ### C7: get is frame-preserving on a hit -/

/-- C7: a successful get of a fresh key changes only that key's recency
position and the hit counter; its value and expiry are unchanged, every
other entry (value, expiry, relative order) is unchanged, and only a
subsequent set resets the expiry to now + ttl. -/
theorem cache_get_frame {V : Type} (c : MemoryCache V) (key : CacheKey) (now : ℚ)
    (e : CacheEntry V) (hfound : c.lookup key.to_string = some e)
    (hfresh : ¬ e.expires_at < now) :
    (c.get key now).1 = some e.value ∧
    (c.get key now).2.lookup key.to_string = some e ∧
    (∀ ks2, ks2 ≠ key.to_string → (c.get key now).2.lookup ks2 = c.lookup ks2) ∧
    (c.get key now).2.entries.filter (fun p => p.1 != key.to_string)
      = c.entries.filter (fun p => p.1 != key.to_string) ∧
    (c.get key now).2.entries = removeKey c.entries key.to_string ++ [(key.to_string, e)] ∧
    (c.get key now).2.hits = c.hits + 1 ∧
    (c.get key now).2.misses = c.misses ∧
    (c.get key now).2.ttl = c.ttl ∧
    (c.get key now).2.max_size = c.max_size ∧
    (∀ v2 now2, ((c.get key now).2.set key v2 now2).lookup key.to_string
        = some { value := v2, expires_at := now2 + c.ttl, created_at := now2 }) := by
  have hget : c.get key now =
      (some e.value,
        { c with entries := removeKey c.entries key.to_string ++ [(key.to_string, e)],
                 hits := c.hits + 1 }) := by
    simp [MemoryCache.get, hfound, hfresh]
  rw [hget]
  set ks := key.to_string with hks
  refine ⟨rfl, ?_, ?_, ?_, rfl, rfl, rfl, rfl, rfl, ?_⟩
  · show ((removeKey c.entries ks ++ [(ks, e)]).find?
        (fun p => p.1 == ks)).map (fun p => p.2) = some e
    rw [List.find?_append, find?_removeKey_self]
    simp
  · intro ks2 hne
    show ((removeKey c.entries ks ++ [(ks, e)]).find?
        (fun p => p.1 == ks2)).map (fun p => p.2) = c.lookup ks2
    rw [List.find?_append, find?_removeKey_ne _ _ _ hne]
    cases hfind : c.entries.find? (fun p => p.1 == ks2) with
    | none =>
      have : ¬ (ks == ks2) = true := by
        simp only [beq_iff_eq]
        exact fun hh => hne hh.symm
      simp [MemoryCache.lookup, hfind, this]
    | some p => simp [MemoryCache.lookup, hfind]
  · show (removeKey c.entries ks ++ [(ks, e)]).filter (fun p => p.1 != ks)
        = c.entries.filter (fun p => p.1 != ks)
    rw [List.filter_append]
    have h1 : (removeKey c.entries ks).filter (fun p => p.1 != ks)
        = removeKey (removeKey c.entries ks) ks := rfl
    rw [h1, removeKey_removeKey]
    simp [removeKey]
  · intro v2 now2
    show ((MemoryCache.setRaw _ ks v2 now2).entries.find?
        (fun p => p.1 == ks)).map (fun p => p.2) = _
    rw [MemoryCache.setRaw]
    have hcontains : (MemoryCache.contains
        { c with entries := removeKey c.entries ks ++ [(ks, e)],
                 hits := c.hits + 1 } ks) = true := by
      simp [MemoryCache.contains]
    simp only [hcontains, if_true]
    set F := removeKey (removeKey c.entries ks ++ [(ks, e)]) ks with hF
    have hFnone : F.find? (fun p => p.1 == ks) = none := find?_removeKey_self _ _
    have htailnone : F.tail.find? (fun p => p.1 == ks) = none := by
      rw [List.find?_eq_none]
      intro x hx
      exact List.find?_eq_none.mp hFnone x (List.mem_of_mem_tail hx)
    by_cases hlen : c.max_size ≤ F.length
    · simp only [hlen, if_true]
      rw [List.find?_append, htailnone]
      simp
    · simp only [hlen, if_false]
      rw [List.find?_append, hFnone]
      simp

/-- Witness for C7 at a concrete two-entry cache. -/
theorem cache_get_frame_witness :
    (MemoryCache.get
        (⟨300, 10, [("page:1:get", ⟨7, 10, 0⟩), ("user:2:get", ⟨9, 20, 0⟩)], 0, 0⟩ :
          MemoryCache ℕ)
        ⟨"page", "1", "get", none⟩ 5).1 = some 7 :=
  (cache_get_frame
    (⟨300, 10, [("page:1:get", ⟨7, 10, 0⟩), ("user:2:get", ⟨9, 20, 0⟩)], 0, 0⟩ :
      MemoryCache ℕ)
    ⟨"page", "1", "get", none⟩ 5 ⟨7, 10, 0⟩ (by rfl) (by norm_num)).1

/-! ### C8: PerEndpointRateLimiter.set_limit -/

theorem find?_mapOverwrite (l : List (String × RateLimiter)) (k : String)
    (v : RateLimiter) (h : l.any (fun p => p.1 == k) = true) :
    (l.map (fun p => if p.1 == k then (k, v) else p)).find? (fun p => p.1 == k)
      = some (k, v) := by
  induction l with
  | nil => simp at h
  | cons a t ih =>
    rw [List.map_cons]
    cases hb : (a.1 == k) with
    | true =>
      simp only [hb, if_true]
      rw [List.find?_cons]
      simp
    | false =>
      simp only [hb, Bool.false_eq_true, if_false]
      rw [List.find?_cons, hb]
      apply ih
      have h' := h
      rw [List.any_cons, hb] at h'
      simpa using h'

theorem find?_dictSet_self (l : List (String × RateLimiter)) (k : String)
    (v : RateLimiter) :
    (dictSet l k v).find? (fun p => p.1 == k) = some (k, v) := by
  rw [dictSet]
  cases hany : l.any (fun p => p.1 == k) with
  | false =>
    simp only [Bool.false_eq_true, if_false]
    rw [List.find?_append]
    have hnone : l.find? (fun p => p.1 == k) = none := by
      rw [List.find?_eq_none]
      intro x hx hpx
      have : l.any (fun p => p.1 == k) = true := List.any_eq_true.mpr ⟨x, hx, hpx⟩
      rw [hany] at this
      exact Bool.false_ne_true this
    rw [hnone]
    simp
  | true =>
    simp only [if_true]
    exact find?_mapOverwrite l k v hany

/-- C8 as stated is false: for rate 5/2 the stored limiter's burst is
int(5/2) = 2, not the rate itself. -/
theorem set_limit_burst_counterexample :
    mkRat 5 2 = 5 / 2 ∧
    ((PerEndpointRateLimiter.set_limit ⟨10, []⟩ "ep" (mkRat 5 2) 0).limiters.find?
        (fun q => q.1 == "ep")).map (fun q => ((q.2.burst : ℚ)))
      = some 2 ∧ ¬ ((2 : ℚ) = mkRat 5 2) := by
  refine ⟨by norm_num [Rat.mkRat_eq_div], by decide, by decide⟩

/-- C8 (amended): set_limit stores a fresh default-burst RateLimiter for
the endpoint: burst (and hence the initial token count) is int(rate),
the rate truncated to an integer — exactly the default a directly
constructed RateLimiter uses when no burst is supplied; when the rate is
a whole number this equals the rate. -/
theorem set_limit_spec (p : PerEndpointRateLimiter) (endpoint : String)
    (rate : ℚ) (now : ℚ) :
    ((p.set_limit endpoint rate now).limiters.find? (fun q => q.1 == endpoint))
        = some (endpoint, mkRateLimiter rate none now) ∧
    (mkRateLimiter rate none now).burst = pyInt rate ∧
    (mkRateLimiter rate none now).tokens = ((pyInt rate : ℤ) : ℚ) ∧
    (∀ n : ℤ, rate = (n : ℚ) → (mkRateLimiter rate none now).burst = n) := by
  refine ⟨?_, rfl, rfl, ?_⟩
  · rw [PerEndpointRateLimiter.set_limit]
    exact find?_dictSet_self _ _ _
  · intro n hn
    subst hn
    simp [mkRateLimiter, pyInt]

/-- Witness for C8 (amended) at a concrete whole-number rate. -/
theorem set_limit_spec_witness :
    ((PerEndpointRateLimiter.set_limit ⟨10, []⟩ "ep" 5 0).limiters.find?
        (fun q => q.1 == "ep")) = some ("ep", mkRateLimiter 5 none 0)
      ∧ (mkRateLimiter 5 none 0).burst = 5 :=
  ⟨(set_limit_spec ⟨10, []⟩ "ep" 5 0).1,
    (set_limit_spec ⟨10, []⟩ "ep" 5 0).2.2.2 5 (by norm_num)⟩

theorem refill_tokens_eq (st : RateLimiter) (now : ℚ) :
    (refillTokens st now).tokens
      = min (st.burst : ℚ) (st.tokens + (now - st.lastUpdate) * st.rate) := rfl

theorem acquireLoop_cons (st : RateLimiter) (dl : Option ℚ) (now chk : ℚ)
    (rest : List (ℚ × ℚ)) :
    acquireLoop st dl ((now, chk) :: rest)
      = match attempt st dl now chk with
        | (.success, st') => (some true, st')
        | (.timedOut, st') => (some false, st')
        | (.retry, st') => acquireLoop st' dl rest := rfl

/-! ### C1: the shape of one acquire attempt -/

/-- C1: each loop iteration first refills (elapsed * rate tokens, capped
at burst) and stamps lastUpdate := now; with at least one token it
consumes one and returns true; otherwise, with a deadline installed that
the fresh clock reading plus wait = (1 - tokens)/rate overshoots, it
returns false without consuming a token; otherwise it sleeps (the trace
advances) and repeats the refill-and-check cycle on the rest of the
trace. -/
theorem acquire_attempt_spec (st : RateLimiter) (dl : Option ℚ) (now chk : ℚ)
    (rest : List (ℚ × ℚ)) :
    (1 ≤ min (st.burst : ℚ) (st.tokens + (now - st.lastUpdate) * st.rate) →
      acquireLoop st dl ((now, chk) :: rest)
        = (some true,
            { st with
              tokens := min (st.burst : ℚ) (st.tokens + (now - st.lastUpdate) * st.rate) - 1,
              lastUpdate := now })) ∧
    (∀ d, dl = some d → d ≠ 0 →
      ¬ 1 ≤ min (st.burst : ℚ) (st.tokens + (now - st.lastUpdate) * st.rate) →
      d < chk + (1 - min (st.burst : ℚ) (st.tokens + (now - st.lastUpdate) * st.rate)) / st.rate →
      acquireLoop st dl ((now, chk) :: rest)
        = (some false,
            { st with
              tokens := min (st.burst : ℚ) (st.tokens + (now - st.lastUpdate) * st.rate),
              lastUpdate := now })) ∧
    (¬ 1 ≤ min (st.burst : ℚ) (st.tokens + (now - st.lastUpdate) * st.rate) →
      ¬ (pyTruthy dl = true ∧
          dl.getD 0 < chk + (1 - min (st.burst : ℚ) (st.tokens + (now - st.lastUpdate) * st.rate)) / st.rate) →
      acquireLoop st dl ((now, chk) :: rest)
        = acquireLoop
            { st with
              tokens := min (st.burst : ℚ) (st.tokens + (now - st.lastUpdate) * st.rate),
              lastUpdate := now } dl rest) := by
  refine ⟨fun h1 => ?_, fun d hd hd0 h1 h2 => ?_, fun h1 h2 => ?_⟩
  · rw [acquireLoop_cons]
    unfold attempt
    rw [refill_tokens_eq, if_pos h1]
    rfl
  · subst hd
    rw [acquireLoop_cons]
    unfold attempt
    rw [refill_tokens_eq, if_neg h1,
      if_pos (⟨by simp [pyTruthy, hd0], by simpa using h2⟩ :
        pyTruthy (some d) = true ∧
          (some d).getD 0 < chk + (1 - min (st.burst : ℚ)
            (st.tokens + (now - st.lastUpdate) * st.rate)) / st.rate)]
    rfl
  · rw [acquireLoop_cons]
    unfold attempt
    rw [refill_tokens_eq, if_neg h1, if_neg h2]
    rfl

/-- Witness for C1: a full bucket yields an immediate success. -/
theorem acquire_attempt_spec_witness :
    acquireLoop ⟨10, 10, 10, 0⟩ none [(0, 0)] = (some true, ⟨10, 10, 9, 0⟩) := by
  have h := (acquire_attempt_spec ⟨10, 10, 10, 0⟩ none 0 0 []).1 (by norm_num)
  norm_num at h
  exact h

/-! ### C9: acquire with timeout 0 behaves as if no timeout was given -/

theorem attempt_none_ne_timedOut (st : RateLimiter) (now chk : ℚ) :
    (attempt st none now chk).1 ≠ .timedOut := by
  unfold attempt
  by_cases h1 : 1 ≤ (refillTokens st now).tokens
  · rw [if_pos h1]
    simp
  · rw [if_neg h1, if_neg (fun hc => by simp [pyTruthy] at hc)]
    simp

/-- C9: a timeout of 0 installs no deadline, so acquire(timeout = 0) is
exactly acquire with no timeout, and without a deadline the loop can
only keep retrying or succeed — it never returns false. -/
theorem acquire_timeout_zero_spec (st : RateLimiter) (t0 : ℚ)
    (trace : List (ℚ × ℚ)) :
    st.acquire (some 0) t0 trace = st.acquire none t0 trace ∧
    ((acquireLoop st none trace).1 = none ∨ (acquireLoop st none trace).1 = some true) := by
  constructor
  · rfl
  · induction trace generalizing st with
    | nil => exact Or.inl rfl
    | cons p rest ih =>
      obtain ⟨now, chk⟩ := p
      rw [acquireLoop_cons]
      rcases hatt : attempt st none now chk with ⟨out, st'⟩
      cases out with
      | success => exact Or.inr rfl
      | timedOut =>
        have := attempt_none_ne_timedOut st now chk
        rw [hatt] at this
        exact absurd rfl this
      | retry => exact ih st'

/-! ### C5: the token count stays within 0 and burst -/

theorem attempt_preserves (st : RateLimiter) (dl : Option ℚ) (now chk : ℚ) :
    (attempt st dl now chk).2.rate = st.rate ∧
    (attempt st dl now chk).2.burst = st.burst ∧
    (attempt st dl now chk).2.lastUpdate = now := by
  unfold attempt
  by_cases h1 : 1 ≤ (refillTokens st now).tokens
  · rw [if_pos h1]
    exact ⟨rfl, rfl, rfl⟩
  · rw [if_neg h1]
    by_cases h2 : pyTruthy dl = true ∧
        dl.getD 0 < chk + (1 - (refillTokens st now).tokens) / st.rate
    · rw [if_pos h2]
      exact ⟨rfl, rfl, rfl⟩
    · rw [if_neg h2]
      exact ⟨rfl, rfl, rfl⟩

theorem attempt_not_success_state (st : RateLimiter) (dl : Option ℚ) (now chk : ℚ)
    (h : (attempt st dl now chk).1 ≠ .success) :
    (attempt st dl now chk).2 = refillTokens st now ∧
      (refillTokens st now).tokens < 1 := by
  unfold attempt at h ⊢
  by_cases h1 : 1 ≤ (refillTokens st now).tokens
  · rw [if_pos h1] at h
    exact absurd rfl h
  · rw [if_neg h1]
    refine ⟨?_, not_le.mp h1⟩
    by_cases h2 : pyTruthy dl = true ∧
        dl.getD 0 < chk + (1 - (refillTokens st now).tokens) / st.rate
    · rw [if_pos h2]
    · rw [if_neg h2]

theorem refill_inv (st : RateLimiter) (now : ℚ) (hrate : 0 < st.rate)
    (hburst : 0 ≤ st.burst) (hlast : st.lastUpdate ≤ now) (hinv : RLInv st) :
    RLInv (refillTokens st now) := by
  constructor
  · show (0 : ℚ) ≤ min (st.burst : ℚ) (st.tokens + (now - st.lastUpdate) * st.rate)
    apply le_min
    · exact_mod_cast hburst
    · have h0 : 0 ≤ (now - st.lastUpdate) * st.rate :=
        mul_nonneg (by linarith) hrate.le
      linarith [hinv.1]
  · show min (st.burst : ℚ) (st.tokens + (now - st.lastUpdate) * st.rate) ≤ (st.burst : ℚ)
    exact min_le_left _ _

theorem attempt_inv (st : RateLimiter) (dl : Option ℚ) (now chk : ℚ)
    (hrate : 0 < st.rate) (hburst : 0 ≤ st.burst) (hlast : st.lastUpdate ≤ now)
    (hinv : RLInv st) : RLInv (attempt st dl now chk).2 := by
  have hr := refill_inv st now hrate hburst hlast hinv
  have hr1 : (0 : ℚ) ≤ (refillTokens st now).tokens := hr.1
  have hr2 : (refillTokens st now).tokens ≤ (st.burst : ℚ) := hr.2
  unfold attempt
  by_cases h1 : 1 ≤ (refillTokens st now).tokens
  · rw [if_pos h1]
    constructor
    · show (0 : ℚ) ≤ (refillTokens st now).tokens - 1
      linarith
    · show (refillTokens st now).tokens - 1 ≤ (st.burst : ℚ)
      linarith
  · rw [if_neg h1]
    by_cases h2 : pyTruthy dl = true ∧
        dl.getD 0 < chk + (1 - (refillTokens st now).tokens) / st.rate
    · rw [if_pos h2]
      exact hr
    · rw [if_neg h2]
      exact hr

theorem acquireLoop_fields :
    ∀ (trace : List (ℚ × ℚ)) (st : RateLimiter) (dl : Option ℚ),
      (acquireLoop st dl trace).2.rate = st.rate ∧
      (acquireLoop st dl trace).2.burst = st.burst := by
  intro trace
  induction trace with
  | nil => exact fun st dl => ⟨rfl, rfl⟩
  | cons p rest ih =>
    intro st dl
    obtain ⟨now, chk⟩ := p
    have hpres := attempt_preserves st dl now chk
    rw [acquireLoop_cons]
    rcases hatt : attempt st dl now chk with ⟨out, st'⟩
    rw [hatt] at hpres
    cases out with
    | success => exact ⟨hpres.1, hpres.2.1⟩
    | timedOut => exact ⟨hpres.1, hpres.2.1⟩
    | retry =>
      obtain ⟨ha, hb⟩ := ih st' dl
      exact ⟨ha.trans hpres.1, hb.trans hpres.2.1⟩

theorem acquireLoop_inv :
    ∀ (trace : List (ℚ × ℚ)) (st : RateLimiter) (dl : Option ℚ) (t : ℚ),
      0 < st.rate → 0 ≤ st.burst → RLInv st → st.lastUpdate ≤ t →
      traceOk st dl t trace → RLInv (acquireLoop st dl trace).2 := by
  intro trace
  induction trace with
  | nil => exact fun st dl t _ _ hinv _ _ => hinv
  | cons p rest ih =>
    intro st dl t hrate hburst hinv hlast htrace
    obtain ⟨now, chk⟩ := p
    obtain ⟨ht1, ht2, ht3⟩ := htrace
    have hlastnow : st.lastUpdate ≤ now := le_trans hlast ht1
    have hinv' := attempt_inv st dl now chk hrate hburst hlastnow hinv
    have hpres := attempt_preserves st dl now chk
    rw [acquireLoop_cons]
    rcases hatt : attempt st dl now chk with ⟨out, st'⟩
    rw [hatt] at hinv' hpres ht3
    cases out with
    | success => exact hinv'
    | timedOut => exact hinv'
    | retry =>
      have hns : (attempt st dl now chk).1 ≠ .success := by
        rw [hatt]
        simp
      obtain ⟨hst', htok1⟩ := attempt_not_success_state st dl now chk hns
      rw [hatt] at hst'
      have htok1' : st'.tokens < 1 := by
        rw [show st' = refillTokens st now from hst']
        exact htok1
      have hsleep : 0 < sleepAmount st' := by
        rw [sleepAmount]
        apply lt_min
        · apply div_pos
          · linarith
          · rw [show st'.rate = st.rate from hpres.1]
            exact hrate
        · norm_num
      apply ih st' dl (chk + sleepAmount st')
      · rw [show st'.rate = st.rate from hpres.1]
        exact hrate
      · rw [show st'.burst = st.burst from hpres.2.1]
        exact hburst
      · exact hinv'
      · rw [show st'.lastUpdate = now from hpres.2.2]
        linarith
      · exact ht3

theorem pyInt_nonneg (q : ℚ) (h : 0 ≤ q) : 0 ≤ pyInt q :=
  Int.tdiv_nonneg (Rat.num_nonneg.mpr h) (by exact_mod_cast Nat.zero_le q.den)

/-- C5: for any rate > 0 and nonnegative burst, 0 ≤ tokens ≤ burst holds
initially, after every refill, after every attempt (successful, timed
out or retrying), after reset, and across every valid sequence of
acquire and reset calls. -/
theorem ratelimiter_token_invariant :
    (∀ (rate : ℚ) (burst : Option ℤ) (t0 : ℚ), 0 < rate →
      (∀ n, burst = some n → 0 ≤ n) → RLInv (mkRateLimiter rate burst t0)) ∧
    (∀ (st : RateLimiter) (now : ℚ), 0 < st.rate → 0 ≤ st.burst →
      st.lastUpdate ≤ now → RLInv st → RLInv (refillTokens st now)) ∧
    (∀ (st : RateLimiter) (dl : Option ℚ) (now chk : ℚ), 0 < st.rate →
      0 ≤ st.burst → st.lastUpdate ≤ now → RLInv st →
      RLInv (attempt st dl now chk).2) ∧
    (∀ (st : RateLimiter) (now : ℚ), 0 ≤ st.burst → RLInv (st.reset now)) ∧
    (∀ (st : RateLimiter) (ops : List RLOp), 0 < st.rate → 0 ≤ st.burst →
      RLInv st → rlSeqValid st ops → RLInv (runRLOps st ops)) := by
  refine ⟨?_, refill_inv, attempt_inv, ?_, ?_⟩
  · intro rate burst t0 hrate hb
    have hpos : 0 ≤ pyInt rate := pyInt_nonneg rate hrate.le
    have hbn : 0 ≤ (mkRateLimiter rate burst t0).burst := by
      rcases burst with _ | n
      · exact hpos
      · by_cases hn : n = 0
        · simp only [mkRateLimiter, hn, if_pos rfl]
          exact hpos
        · simp only [mkRateLimiter, if_neg hn]
          exact hb n rfl
    constructor
    · show (0 : ℚ) ≤ ((mkRateLimiter rate burst t0).burst : ℚ)
      exact_mod_cast hbn
    · exact le_refl _
  · intro st now hburst
    refine ⟨?_, le_refl _⟩
    show (0 : ℚ) ≤ (st.burst : ℚ)
    exact_mod_cast hburst
  · intro st ops
    induction ops generalizing st with
    | nil => exact fun _ _ hinv _ => hinv
    | cons op rest ih =>
      intro hrate hburst hinv hseq
      obtain ⟨hop, hrest⟩ := hseq
      show RLInv (runRLOps (stepRLOp st op) rest)
      cases op with
      | acq timeout t0 trace =>
        obtain ⟨hle, htr⟩ := hop
        have hstep : RLInv (stepRLOp st (.acq timeout t0 trace)) :=
          acquireLoop_inv trace st (mkDeadline t0 timeout) t0 hrate hburst hinv hle htr
        have hf := acquireLoop_fields trace st (mkDeadline t0 timeout)
        apply ih
        · show 0 < (acquireLoop st (mkDeadline t0 timeout) trace).2.rate
          rw [hf.1]
          exact hrate
        · show 0 ≤ (acquireLoop st (mkDeadline t0 timeout) trace).2.burst
          rw [hf.2]
          exact hburst
        · exact hstep
        · exact hrest
      | rst now =>
        apply ih
        · exact hrate
        · exact hburst
        · refine ⟨?_, le_refl _⟩
          show (0 : ℚ) ≤ (st.burst : ℚ)
          exact_mod_cast hburst
        · exact hrest

/-- Witness for C5: a freshly built limiter run through a reset keeps the
invariant. -/
theorem ratelimiter_token_invariant_witness :
    RLInv (runRLOps (mkRateLimiter 10 none 0) [RLOp.rst 1]) := by
  apply ratelimiter_token_invariant.2.2.2.2 (mkRateLimiter 10 none 0) [RLOp.rst 1]
  · show (0 : ℚ) < 10
    norm_num
  · show (0 : ℤ) ≤ pyInt 10
    decide
  · exact ratelimiter_token_invariant.1 10 none 0 (by norm_num)
      (fun n h => by simp at h)
  · refine ⟨?_, trivial⟩
    show (mkRateLimiter 10 none 0).lastUpdate ≤ 1
    norm_num [mkRateLimiter]

/-! ### C10: a fractional default rate starves the limiter -/

theorem refill_tokens_nonpos (st : RateLimiter) (now : ℚ) (hburst : st.burst = 0)
    (htok : st.tokens ≤ 0) : (refillTokens st now).tokens ≤ 0 := by
  rw [refill_tokens_eq, hburst]
  exact le_trans (min_le_left _ _) (by norm_num)

theorem attempt_burst0 (st : RateLimiter) (dl : Option ℚ) (now chk : ℚ)
    (hburst : st.burst = 0) (htok : st.tokens ≤ 0) :
    (attempt st dl now chk).1 ≠ .success := by
  have hr := refill_tokens_nonpos st now hburst htok
  have h1 : ¬ 1 ≤ (refillTokens st now).tokens := by linarith
  unfold attempt
  rw [if_neg h1]
  by_cases h2 : pyTruthy dl = true ∧
      dl.getD 0 < chk + (1 - (refillTokens st now).tokens) / st.rate
  · rw [if_pos h2]
    simp
  · rw [if_neg h2]
    simp

theorem acquireLoop_burst0_never_true :
    ∀ (trace : List (ℚ × ℚ)) (st : RateLimiter) (dl : Option ℚ),
      st.burst = 0 → st.tokens ≤ 0 →
      (acquireLoop st dl trace).1 = none ∨ (acquireLoop st dl trace).1 = some false := by
  intro trace
  induction trace with
  | nil => exact fun st dl _ _ => Or.inl rfl
  | cons p rest ih =>
    intro st dl hburst htok
    obtain ⟨now, chk⟩ := p
    have hns := attempt_burst0 st dl now chk hburst htok
    have hnss := attempt_not_success_state st dl now chk hns
    have hpres := attempt_preserves st dl now chk
    rw [acquireLoop_cons]
    rcases hatt : attempt st dl now chk with ⟨out, st'⟩
    rw [hatt] at hns hnss hpres
    cases out with
    | success => exact absurd rfl hns
    | timedOut => exact Or.inr rfl
    | retry =>
      apply ih st' dl
      · rw [hpres.2.1]
        exact hburst
      · rw [show st' = refillTokens st now from hnss.1]
        exact refill_tokens_nonpos st now hburst htok

theorem acquireLoop_burst0_no_deadline :
    ∀ (trace : List (ℚ × ℚ)) (st : RateLimiter),
      st.burst = 0 → st.tokens ≤ 0 → (acquireLoop st none trace).1 = none := by
  intro trace
  induction trace with
  | nil => exact fun st _ _ => rfl
  | cons p rest ih =>
    intro st hburst htok
    obtain ⟨now, chk⟩ := p
    have hns := attempt_burst0 st none now chk hburst htok
    have hnt := attempt_none_ne_timedOut st now chk
    have hnss := attempt_not_success_state st none now chk hns
    have hpres := attempt_preserves st none now chk
    rw [acquireLoop_cons]
    rcases hatt : attempt st none now chk with ⟨out, st'⟩
    rw [hatt] at hns hnt hnss hpres
    cases out with
    | success => exact absurd rfl hns
    | timedOut => exact absurd rfl hnt
    | retry =>
      apply ih st'
      · rw [hpres.2.1]
        exact hburst
      · rw [show st' = refillTokens st now from hnss.1]
        exact refill_tokens_nonpos st now hburst htok

theorem acquireLoop_burst0_timeout_false :
    ∀ (trace : List (ℚ × ℚ)) (st : RateLimiter) (T d : ℚ),
      st.burst = 0 → st.tokens ≤ 0 → 0 < st.rate → st.rate < 1 → d ≠ 0 →
      traceOk st (some d) T trace → trace ≠ [] →
      d < T + ((trace.length : ℚ) - 1) / 10 + 1 / st.rate →
      (acquireLoop st (some d) trace).1 = some false := by
  intro trace
  induction trace with
  | nil =>
    intro st T d _ _ _ _ _ _ hne _
    exact absurd rfl hne
  | cons p rest ih =>
    intro st T d hburst htok hrate hrate1 hd0 htrace _ hbound
    obtain ⟨now, chk⟩ := p
    obtain ⟨ht1, ht2, ht3⟩ := htrace
    have hrefill := refill_tokens_nonpos st now hburst htok
    have h1 : ¬ 1 ≤ (refillTokens st now).tokens := by linarith
    have hwait : 1 / st.rate ≤ (1 - (refillTokens st now).tokens) / st.rate :=
      (div_le_div_iff_of_pos_right hrate).mpr (by linarith)
    by_cases hto : d < chk + (1 - (refillTokens st now).tokens) / st.rate
    · rw [acquireLoop_cons]
      unfold attempt
      rw [if_neg h1, if_pos (⟨by simp [pyTruthy, hd0], hto⟩ :
        pyTruthy (some d) = true ∧
          (some d).getD 0 < chk + (1 - (refillTokens st now).tokens) / st.rate)]
    · have hcond : ¬ (pyTruthy (some d) = true ∧
          (some d).getD 0 < chk + (1 - (refillTokens st now).tokens) / st.rate) :=
        fun hc => hto hc.2
      have hattr : attempt st (some d) now chk = (.retry, refillTokens st now) := by
        unfold attempt
        rw [if_neg h1, if_neg hcond]
      rw [acquireLoop_cons, hattr]
      show (acquireLoop (refillTokens st now) (some d) rest).1 = some false
      rcases rest with _ | ⟨q, rest'⟩
      · exfalso
        apply hto
        have hb' : d < T + 1 / st.rate := by
          have hlen : (([(now, chk)] : List (ℚ × ℚ)).length : ℚ) = 1 := by norm_num
          rw [hlen] at hbound
          norm_num at hbound
          rw [one_div]
          exact hbound
        linarith
      · rw [hattr] at ht3
        have hsleep : sleepAmount (refillTokens st now) = 1 / 10 := by
          rw [sleepAmount]
          apply min_eq_right
          have hone : 1 < 1 / st.rate := (one_lt_div hrate).mpr hrate1
          show (1 : ℚ) / 10 ≤ (1 - (refillTokens st now).tokens) / (refillTokens st now).rate
          have hrr : (refillTokens st now).rate = st.rate := rfl
          rw [hrr]
          linarith
        apply ih (refillTokens st now) (chk + sleepAmount (refillTokens st now)) d
        · exact hburst
        · exact hrefill
        · exact hrate
        · exact hrate1
        · exact hd0
        · exact ht3
        · simp
        · rw [hsleep]
          show d < chk + 1 / 10 + (((q :: rest').length : ℚ) - 1) / 10 + 1 / st.rate
          have hlen : ((((now, chk) :: q :: rest').length : ℚ))
              = ((q :: rest').length : ℚ) + 1 := by
            push_cast [List.length_cons]
            ring
          rw [hlen] at hbound
          have hql : (1 : ℚ) ≤ ((q :: rest').length : ℚ) := by
            have : 1 ≤ (q :: rest').length := by simp
            exact_mod_cast this
          have hTchk : T ≤ chk := le_trans ht1 ht2
          have hexp : T + ((q :: rest').length + 1 - 1 : ℚ) / 10
              ≤ chk + 1 / 10 + (((q :: rest').length : ℚ) - 1) / 10 := by
            have : ((q :: rest').length + 1 - 1 : ℚ) / 10
                = 1 / 10 + (((q :: rest').length : ℚ) - 1) / 10 := by ring
            rw [this]
            linarith
          linarith

/-- C10: with 0 < rate < 1 and no explicit burst, int(rate) = 0 becomes
the burst, so tokens are capped at 0 forever: no acquire ever returns
true, a call without a timeout retries forever (no trace makes it
return), and any call with a positive finite timeout returns false once
the 100ms-paced retries exhaust the deadline. -/
theorem low_rate_default_burst_starves (rate tc : ℚ) (h0 : 0 < rate)
    (h1 : rate < 1) :
    (mkRateLimiter rate none tc).burst = 0 ∧
    (mkRateLimiter rate none tc).tokens = 0 ∧
    (∀ (dl : Option ℚ) (trace : List (ℚ × ℚ)),
      (acquireLoop (mkRateLimiter rate none tc) dl trace).1 = none ∨
      (acquireLoop (mkRateLimiter rate none tc) dl trace).1 = some false) ∧
    (∀ (t0 : ℚ) (trace : List (ℚ × ℚ)),
      ((mkRateLimiter rate none tc).acquire none t0 trace).1 = none) ∧
    (∀ (timeout t0 : ℚ) (trace : List (ℚ × ℚ)), 0 < timeout → 0 ≤ t0 →
      traceOk (mkRateLimiter rate none tc) (some (t0 + timeout)) t0 trace →
      trace ≠ [] →
      t0 + timeout < t0 + ((trace.length : ℚ) - 1) / 10 + 1 / rate →
      ((mkRateLimiter rate none tc).acquire (some timeout) t0 trace).1 = some false) := by
  have hburst : (mkRateLimiter rate none tc).burst = 0 := by
    show pyInt rate = 0
    rw [pyInt]
    apply Int.tdiv_eq_zero_of_lt (Rat.num_pos.mpr h0).le
    have hq : rate = (rate.num : ℚ) / (rate.den : ℚ) := (Rat.num_div_den rate).symm
    have hd : (0 : ℚ) < (rate.den : ℚ) := by exact_mod_cast rate.pos
    rw [hq, div_lt_one hd] at h1
    exact_mod_cast h1
  have htok : (mkRateLimiter rate none tc).tokens = 0 := by
    show ((pyInt rate : ℤ) : ℚ) = 0
    rw [show pyInt rate = 0 from hburst]
    norm_num
  refine ⟨hburst, htok, ?_, ?_, ?_⟩
  · intro dl trace
    exact acquireLoop_burst0_never_true trace _ dl hburst (le_of_eq htok)
  · intro t0 trace
    exact acquireLoop_burst0_no_deadline trace _ hburst (le_of_eq htok)
  · intro timeout t0 trace hpos ht0 htr hne hbound
    have hdl : mkDeadline t0 (some timeout) = some (t0 + timeout) := by
      rw [mkDeadline]
      rw [if_neg (by linarith : ¬ timeout = 0)]
    show (acquireLoop (mkRateLimiter rate none tc)
        (mkDeadline t0 (some timeout)) trace).1 = some false
    rw [hdl]
    exact acquireLoop_burst0_timeout_false trace _ t0 (t0 + timeout) hburst
      (le_of_eq htok) h0 h1 (by linarith) htr hne hbound

/-- Witness for C10: rate 1/2, timeout 1, one loop iteration at time 0
already overshoots the deadline, so acquire returns false. -/
theorem low_rate_default_burst_starves_witness :
    ((mkRateLimiter (mkRat 1 2) none 0).acquire (some 1) 0 [(0, 0)]).1 = some false := by
  have h0 : (0 : ℚ) < mkRat 1 2 := by norm_num [Rat.mkRat_eq_div]
  have h1 : mkRat 1 2 < 1 := by norm_num [Rat.mkRat_eq_div]
  have hthm := low_rate_default_burst_starves (mkRat 1 2) 0 h0 h1
  refine hthm.2.2.2.2 1 0 [(0, 0)] (by norm_num) (le_refl 0) ?_ (by simp)
    (by norm_num [Rat.mkRat_eq_div])
  refine ⟨le_refl 0, le_refl 0, ?_⟩
  have htk : (refillTokens (mkRateLimiter (mkRat 1 2) none 0) 0).tokens = 0 := by
    rw [refill_tokens_eq, hthm.1, hthm.2.1,
      show (mkRateLimiter (mkRat 1 2) none 0).lastUpdate = 0 from rfl]
    norm_num
  have hrt : (mkRateLimiter (mkRat 1 2) none 0).rate = mkRat 1 2 := rfl
  have hatt : attempt (mkRateLimiter (mkRat 1 2) none 0) (some (0 + 1)) 0 0
      = (.timedOut, refillTokens (mkRateLimiter (mkRat 1 2) none 0) 0) := by
    unfold attempt
    rw [htk, hrt]
    split_ifs with hA hB
    · exfalso
      norm_num at hA
    · rfl
    · exfalso
      apply hB
      constructor
      · norm_num [pyTruthy]
      · show (0 : ℚ) + 1 < 0 + (1 - 0) / mkRat 1 2
        norm_num [Rat.mkRat_eq_div]
  rw [hatt]
  trivial

/-! ### C3: bounded size, LRU eviction, and the retained-keys law -/

theorem reverse_tail_eq {α : Type} (l : List α) : l.tail.reverse = l.reverse.dropLast := by
  cases l with
  | nil => rfl
  | cons a t => simp [List.reverse_cons, List.dropLast_concat]

theorem map_fst_tail {V : Type} (l : List (String × CacheEntry V)) :
    l.tail.map Prod.fst = (l.map Prod.fst).tail := by
  cases l <;> rfl

theorem map_fst_removeKey {V : Type} (l : List (String × CacheEntry V)) (ks : String) :
    (removeKey l ks).map Prod.fst = (l.map Prod.fst).filter (fun x => x != ks) := by
  rw [removeKey, List.filter_map]
  rfl

theorem contains_false_removeKey {V : Type} (c : MemoryCache V) (ks : String)
    (h : c.contains ks = false) : removeKey c.entries ks = c.entries := by
  rw [removeKey, List.filter_eq_self]
  intro p hp
  have h' := h
  rw [MemoryCache.contains] at h'
  have hnp : ¬ (p.1 == ks) = true := by
    intro hb
    have : c.entries.any (fun p => p.1 == ks) = true := List.any_eq_true.mpr ⟨p, hp, hb⟩
    rw [h'] at this
    exact Bool.false_ne_true this
  simpa using hnp

theorem setRaw_entries_eq {V : Type} (c : MemoryCache V) (ks : String) (v : V)
    (now : ℚ) :
    (c.setRaw ks v now).entries
      = (if c.max_size ≤ (removeKey c.entries ks).length
          then (removeKey c.entries ks).tail
          else removeKey c.entries ks)
        ++ [(ks, { value := v, expires_at := now + c.ttl, created_at := now })] := by
  rw [MemoryCache.setRaw]
  cases hc : c.contains ks with
  | true => simp only [hc, if_true]
  | false =>
    simp only [hc, Bool.false_eq_true, if_false]
    rw [contains_false_removeKey c ks hc]

theorem removeKey_length_le {V : Type} (l : List (String × CacheEntry V))
    (ks : String) : (removeKey l ks).length ≤ l.length :=
  List.length_filter_le _ _

theorem setRaw_size {V : Type} (c : MemoryCache V) (ks : String) (v : V) (now : ℚ)
    (hm : 0 < c.max_size) (h : c.entries.length ≤ c.max_size) :
    (c.setRaw ks v now).entries.length ≤ c.max_size := by
  rw [setRaw_entries_eq, List.length_append]
  have hrk := removeKey_length_le c.entries ks
  by_cases hfull : c.max_size ≤ (removeKey c.entries ks).length
  · rw [if_pos hfull, List.length_tail]
    have h1 : ([(ks, ({ value := v, expires_at := now + c.ttl, created_at := now } :
        CacheEntry V))]).length = 1 := rfl
    omega
  · rw [if_neg hfull]
    have h1 : ([(ks, ({ value := v, expires_at := now + c.ttl, created_at := now } :
        CacheEntry V))]).length = 1 := rfl
    omega

theorem stepCacheOp_config {V : Type} (c : MemoryCache V) (op : CacheOp V) :
    (stepCacheOp c op).max_size = c.max_size ∧ (stepCacheOp c op).ttl = c.ttl := by
  cases op with
  | get key now =>
    rcases hl : c.lookup key.to_string with _ | e
    · refine ⟨?_, ?_⟩ <;> simp [stepCacheOp, MemoryCache.get, hl]
    · by_cases he : e.expires_at < now <;>
        refine ⟨?_, ?_⟩ <;> simp [stepCacheOp, MemoryCache.get, hl, he]
  | set key v now => exact ⟨rfl, rfl⟩
  | del key =>
    by_cases hc : c.contains key.to_string <;>
      refine ⟨?_, ?_⟩ <;> simp [stepCacheOp, MemoryCache.delete, hc]
  | clear => exact ⟨rfl, rfl⟩
  | invalidate rt idOpt => exact ⟨rfl, rfl⟩
  | cleanup now => exact ⟨rfl, rfl⟩

theorem stepCacheOp_size {V : Type} (c : MemoryCache V) (op : CacheOp V)
    (hm : 0 < c.max_size) (h : c.entries.length ≤ c.max_size) :
    (stepCacheOp c op).entries.length ≤ c.max_size := by
  cases op with
  | get key now =>
    rcases hl : c.lookup key.to_string with _ | e
    · have : (stepCacheOp c (.get key now)).entries = c.entries := by
        simp [stepCacheOp, MemoryCache.get, hl]
      rw [this]
      exact h
    · by_cases he : e.expires_at < now
      · have : (stepCacheOp c (.get key now)).entries
            = removeKey c.entries key.to_string := by
          simp [stepCacheOp, MemoryCache.get, hl, he]
        rw [this]
        exact le_trans (removeKey_length_le _ _) h
      · have hent : (stepCacheOp c (.get key now)).entries
            = removeKey c.entries key.to_string ++ [(key.to_string, e)] := by
          simp [stepCacheOp, MemoryCache.get, hl, he]
        rw [hent, List.length_append]
        obtain ⟨p, hfind, hp2⟩ := Option.map_eq_some'.mp hl
        have hmem := List.mem_of_find?_eq_some hfind
        have hpred := List.find?_some hfind
        have hlt : (removeKey c.entries key.to_string).length < c.entries.length := by
          apply List.length_filter_lt_length_iff_exists.mpr
          exact ⟨p, hmem, by simpa using hpred⟩
        have h1 : ([(key.to_string, e)]).length = 1 := rfl
        omega
  | set key v now => exact setRaw_size c key.to_string v now hm h
  | del key =>
    by_cases hc : c.contains key.to_string
    · have : (stepCacheOp c (.del key)).entries = removeKey c.entries key.to_string := by
        simp [stepCacheOp, MemoryCache.delete, hc]
      rw [this]
      exact le_trans (removeKey_length_le _ _) h
    · have : (stepCacheOp c (.del key)).entries = c.entries := by
        simp [stepCacheOp, MemoryCache.delete, hc]
      rw [this]
      exact h
  | clear =>
    show ([] : List (String × CacheEntry V)).length ≤ c.max_size
    simp
  | invalidate rt idOpt => exact le_trans (List.length_filter_le _ _) h
  | cleanup now => exact le_trans (List.length_filter_le _ _) h

theorem runCacheOps_size {V : Type} :
    ∀ (ops : List (CacheOp V)) (c : MemoryCache V), 0 < c.max_size →
      c.entries.length ≤ c.max_size →
      (runCacheOps c ops).entries.length ≤ c.max_size := by
  intro ops
  induction ops with
  | nil => exact fun c _ h => h
  | cons op rest ih =>
    intro c hm h
    show (runCacheOps (stepCacheOp c op) rest).entries.length ≤ c.max_size
    have hcfg := (stepCacheOp_config c op).1
    have hrec := ih (stepCacheOp c op) (by rw [hcfg]; exact hm)
      (by rw [hcfg]; exact stepCacheOp_size c op hm h)
    rw [hcfg] at hrec
    exact hrec

theorem setRaw_evicts_lru {V : Type} (c : MemoryCache V) (ks : String) (v : V)
    (now : ℚ) (hnew : c.contains ks = false)
    (hfull : c.entries.length = c.max_size) :
    (c.setRaw ks v now).entries
      = c.entries.tail
        ++ [(ks, { value := v, expires_at := now + c.ttl, created_at := now })] := by
  rw [setRaw_entries_eq, contains_false_removeKey c ks hnew,
    if_pos (le_of_eq hfull.symm)]

theorem length_filter_ne_nodup :
    ∀ (l : List String), l.Nodup → ∀ k, k ∈ l →
      (l.filter (fun x => x != k)).length + 1 = l.length := by
  intro l
  induction l with
  | nil =>
    intro _ k hk
    cases hk
  | cons a t ih =>
    intro hnd k hk
    rw [List.filter_cons]
    by_cases ha : a = k
    · subst ha
      have hnot : a ∉ t := (List.nodup_cons.mp hnd).1
      rw [bne_self_eq_false]
      simp only [Bool.false_eq_true, if_false]
      have hft : t.filter (fun x => x != a) = t :=
        List.filter_eq_self.mpr (fun x hx => by
          simp only [bne_iff_ne, ne_eq]
          exact fun h => hnot (h ▸ hx))
      rw [hft, List.length_cons]
    · have hk' : k ∈ t := by
        rcases List.mem_cons.mp hk with h | h
        · exact absurd h.symm ha
        · exact h
      have hane : (a != k) = true := by simpa using ha
      rw [hane]
      simp only [if_true]
      have := ih (List.nodup_cons.mp hnd).2 k hk'
      simp only [List.length_cons]
      omega

theorem step_take (n : ℕ) (T : List String) (hT : T.Nodup) (k : String) :
    (if n + 1 ≤ ((T.take (n + 1)).filter (fun x => x != k)).length
      then ((T.take (n + 1)).filter (fun x => x != k)).dropLast
      else (T.take (n + 1)).filter (fun x => x != k))
    = (T.filter (fun x => x != k)).take n := by
  by_cases hk : k ∈ T.take (n + 1)
  · have hsub : (T.take (n + 1)).Nodup := hT.sublist (List.take_sublist _ _)
    have hlenf := length_filter_ne_nodup _ hsub k hk
    have hle : (T.take (n + 1)).length ≤ n + 1 := by
      rw [List.length_take]
      omega
    rw [if_neg (by omega)]
    have hdecomp : T = T.take (n + 1) ++ T.drop (n + 1) :=
      (List.take_append_drop _ _).symm
    have hknotdrop : k ∉ T.drop (n + 1) := by
      have hnd : (T.take (n + 1) ++ T.drop (n + 1)).Nodup := by
        rw [List.take_append_drop]
        exact hT
      exact fun hmem => (List.nodup_append.mp hnd).2.2 hk hmem
    have hdropfilter : (T.drop (n + 1)).filter (fun x => x != k) = T.drop (n + 1) :=
      List.filter_eq_self.mpr (fun x hx => by
        simp only [bne_iff_ne, ne_eq]
        exact fun h => hknotdrop (h ▸ hx))
    rw [show T.filter (fun x => x != k)
        = (T.take (n + 1)).filter (fun x => x != k) ++ T.drop (n + 1) from by
      conv_lhs => rw [hdecomp]
      rw [List.filter_append, hdropfilter]]
    by_cases hfull : n + 1 ≤ T.length
    · have hlen_take : (T.take (n + 1)).length = n + 1 := by
        rw [List.length_take]
        omega
      have hRf : ((T.take (n + 1)).filter (fun x => x != k)).length = n := by omega
      rw [List.take_left' hRf]
    · have hdrop : T.drop (n + 1) = [] := List.drop_eq_nil_of_le (by omega)
      rw [hdrop, List.append_nil]
      refine (List.take_of_length_le ?_).symm
      rw [List.length_take] at hlenf
      omega
  · have hRf : (T.take (n + 1)).filter (fun x => x != k) = T.take (n + 1) :=
      List.filter_eq_self.mpr (fun x hx => by
        simp only [bne_iff_ne, ne_eq]
        exact fun h => hk (h ▸ hx))
    rw [hRf]
    by_cases hfull : n + 1 ≤ T.length
    · have hlen_take : (T.take (n + 1)).length = n + 1 := by
        rw [List.length_take]
        omega
      rw [if_pos (le_of_eq hlen_take.symm)]
      have hdecomp : T = T.take (n + 1) ++ T.drop (n + 1) :=
        (List.take_append_drop _ _).symm
      have hfilterT : T.filter (fun x => x != k)
          = T.take (n + 1) ++ (T.drop (n + 1)).filter (fun x => x != k) := by
        conv_lhs => rw [hdecomp]
        rw [List.filter_append, hRf]
      rw [hfilterT, List.take_append_eq_append_take]
      have hsubz : n - (T.take (n + 1)).length = 0 := by omega
      rw [hsubz, List.take_zero, List.append_nil, List.dropLast_eq_take, hlen_take,
        Nat.add_sub_cancel]
    · have hTlen : T.length ≤ n := by omega
      have htakeT : T.take (n + 1) = T := List.take_of_length_le (by omega)
      have hk' : k ∉ T := htakeT ▸ hk
      rw [htakeT]
      have hfilterT : T.filter (fun x => x != k) = T :=
        List.filter_eq_self.mpr (fun x hx => by
          simp only [bne_iff_ne, ne_eq]
          exact fun h => hk' (h ▸ hx))
      rw [hfilterT, if_neg (by omega : ¬ n + 1 ≤ T.length)]
      exact (List.take_of_length_le hTlen).symm

theorem setRaw_keysRev {V : Type} (c : MemoryCache V) (ks : String) (v : V)
    (now : ℚ) :
    ((c.setRaw ks v now).entries.map Prod.fst).reverse
      = ks :: (if c.max_size
            ≤ ((c.entries.map Prod.fst).reverse.filter (fun x => x != ks)).length
          then ((c.entries.map Prod.fst).reverse.filter (fun x => x != ks)).dropLast
          else (c.entries.map Prod.fst).reverse.filter (fun x => x != ks)) := by
  have hlen2 : ((c.entries.map Prod.fst).reverse.filter (fun x => x != ks)).length
      = (removeKey c.entries ks).length := by
    rw [List.filter_reverse, List.length_reverse, ← map_fst_removeKey, List.length_map]
  rw [setRaw_entries_eq, List.map_append, List.reverse_append, hlen2]
  by_cases hfull : c.max_size ≤ (removeKey c.entries ks).length
  · rw [if_pos hfull, if_pos hfull]
    rw [map_fst_tail, map_fst_removeKey, reverse_tail_eq, List.filter_reverse]
    rfl
  · rw [if_neg hfull, if_neg hfull]
    rw [map_fst_removeKey, List.filter_reverse]
    rfl

theorem runSets_keysRev {V : Type} :
    ∀ (ops : List (String × V × ℚ)) (c : MemoryCache V) (T : List String),
      0 < c.max_size → T.Nodup →
      (c.entries.map Prod.fst).reverse = T.take c.max_size →
      ((runSets c ops).entries.map Prod.fst).reverse
        = (List.foldl (fun acc p => touchStep acc p.1) T ops).take c.max_size := by
  intro ops
  induction ops with
  | nil =>
    intro c T _ _ h
    exact h
  | cons p rest ih =>
    intro c T hm hT hkeys
    obtain ⟨k, v, now⟩ := p
    show ((runSets (c.setRaw k v now) rest).entries.map Prod.fst).reverse
      = (List.foldl (fun acc p => touchStep acc p.1) (touchStep T k) rest).take c.max_size
    apply ih (c.setRaw k v now) (touchStep T k) hm
    · rw [touchStep]
      refine List.nodup_cons.mpr ⟨?_, hT.filter _⟩
      intro hmem
      have := (List.mem_filter.mp hmem).2
      simp at this
    · rw [setRaw_keysRev, hkeys,
        show (c.setRaw k v now).max_size = c.max_size from rfl]
      obtain ⟨n, hn⟩ : ∃ n, c.max_size = n + 1 := ⟨c.max_size - 1, by omega⟩
      rw [hn, touchStep, List.take_succ_cons, ← step_take n T hT k]

/-- C3: the cache never exceeds max_size across any operation sequence;
a set of an absent key into a full cache evicts exactly the front
(least-recently-used) entry; and a pure sequence of sets from an empty
cache retains exactly the max_size most-recently-touched keys, in
recency order. -/
theorem cache_lru_spec {V : Type} :
    (∀ (c : MemoryCache V) (op : CacheOp V), 0 < c.max_size →
      c.entries.length ≤ c.max_size →
      (stepCacheOp c op).entries.length ≤ c.max_size) ∧
    (∀ (ttl : ℚ) (m : ℕ) (ops : List (CacheOp V)), 0 < m →
      (runCacheOps (MemoryCache.empty V ttl m) ops).entries.length ≤ m) ∧
    (∀ (c : MemoryCache V) (ks : String) (v : V) (now : ℚ),
      c.contains ks = false → c.entries.length = c.max_size →
      (c.setRaw ks v now).entries
        = c.entries.tail
          ++ [(ks, { value := v, expires_at := now + c.ttl, created_at := now })]) ∧
    (∀ (ttl : ℚ) (m : ℕ) (ops : List (String × V × ℚ)), 0 < m →
      (runSets (MemoryCache.empty V ttl m) ops).entries.map Prod.fst
        = mostRecentKeys m (ops.map Prod.fst)) := by
  refine ⟨stepCacheOp_size, ?_, setRaw_evicts_lru, ?_⟩
  · intro ttl m ops hm
    exact runCacheOps_size ops (MemoryCache.empty V ttl m) hm (by simp [MemoryCache.empty])
  · intro ttl m ops hm
    have h := runSets_keysRev ops (MemoryCache.empty V ttl m) [] hm List.nodup_nil
      (by simp [MemoryCache.empty])
    rw [show (MemoryCache.empty V ttl m).max_size = m from rfl] at h
    rw [mostRecentKeys, touchedOrder, List.foldl_map Prod.fst touchStep ops []]
    rw [← h, List.reverse_reverse]

/-- Witness for C3: three sets into a two-slot cache keep the two most
recent keys. -/
theorem cache_lru_spec_witness :
    (runSets (MemoryCache.empty ℕ 300 2) [("a", 1, 0), ("b", 2, 0), ("c", 3, 0)]).entries.map
        Prod.fst
      = mostRecentKeys 2 ["a", "b", "c"] := by
  have h := (@cache_lru_spec ℕ).2.2.2 300 2 [("a", 1, 0), ("b", 2, 0), ("c", 3, 0)]
    (by norm_num)
  simpa using h

end WikiJS
